import Mathlib

/-!
Verification development for the QSchematic wire polyline engine
(`src/lib/items/wire.cpp`, class `QSchematic::Wire`).

The C++ class keeps an ordered list `_points : QList<WirePoint>` of
grid-lattice points (stored relative to the item's anchor `gridPoint()`),
a cached bounding rectangle `_rect`, and transient interaction state
(`_pointToMoveIndex`, `_lineSegmentToMoveIndex`, `_prevMousePos`).
We embed this state shallowly: the point list becomes `List WirePoint`,
the Qt signal `pointMoved(*this, point)` becomes an append-only trace of
`(wireId, WirePoint)` events, and each member function becomes a pure
function `WireState → ... → WireState`.

Machine integers: `QPoint` stores C++ `int`; we model coordinates as
unbounded `Int` (no arithmetic in the translated code can overflow for
the inputs considered, and the `INT_MAX` / `INT_MIN` sentinels of
`calculateBoundingRect` are kept literally).
-/

set_option autoImplicit false

namespace QSchematicWire

/-- C++ `INT_MAX` (32-bit), the initial accumulator of the top-left fold in
`Wire::calculateBoundingRect`. -/
def INT_MAX : Int := 2147483647

/-- C++ `INT_MIN` (32-bit), the initial accumulator of the bottom-right fold in
`Wire::calculateBoundingRect`. -/
def INT_MIN : Int := -2147483648

/-- A wire point: a lattice coordinate plus a junction flag
(class `WirePoint`, a `QPoint` with `_isJunction`). -/
structure WirePoint where
  x : Int
  y : Int
  isJunction : Bool
deriving DecidableEq, Repr

instance : Inhabited WirePoint := ⟨⟨0, 0, false⟩⟩

/-- Modelled from the spec: the `WirePoint(const QPoint&)` constructor
(`wirepoint.h`, not under `src/`) wraps a position; the junction flag of a
freshly constructed point is off (spec §3: a Point is a coordinate plus a
junction flag; new points are not junctions). -/
def mkWirePoint (x y : Int) : WirePoint := ⟨x, y, false⟩

/-- The position of a wire point (`WirePoint::toPoint()`). -/
def posOf (p : WirePoint) : Int × Int := (p.x, p.y)

/-- Modelled from the spec: `WirePoint::operator==` (in `wirepoint.h`, not
under `src/`) compares by position only — spec §3: "Equality is by position
only (junction flag not part of identity)". This equality is what
`QList::count`, `QList::removeOne` and `QList::removeAll` use below. -/
def posEq (p q : WirePoint) : Bool := p.x = q.x ∧ p.y = q.y

/-- The stored bounding rectangle `_rect` (a `QRectF` built from its
top-left and bottom-right corners). -/
structure Rect where
  tlx : Int
  tly : Int
  brx : Int
  bry : Int
deriving DecidableEq, Repr

/-- The shallow state of one `Wire`.

* `wireId` - the identity of the wire (`*this` in the signal emission);
* `gridX`, `gridY` - the anchor `gridPoint()` (owned by the host item and
  never changed by the operations below);
* `gridSize` - `_settings.gridSize`;
* `points` - `_points`;
* `rect` - `_rect`;
* `emitted` - the trace of `pointMoved` signal emissions, oldest first;
* `pointToMoveIndex`, `lineSegmentToMoveIndex`, `prevX`, `prevY` - the
  interaction state `_pointToMoveIndex`, `_lineSegmentToMoveIndex`,
  `_prevMousePos`. -/
structure WireState where
  wireId : Nat
  gridX : Int
  gridY : Int
  gridSize : Int
  points : List WirePoint
  rect : Rect
  emitted : List (Nat × WirePoint)
  pointToMoveIndex : Int
  lineSegmentToMoveIndex : Int
  prevX : Int
  prevY : Int
deriving DecidableEq, Repr

/-- Top-left x fold of `Wire::calculateBoundingRect`:
start from `INT_MAX`, replace whenever a point's x is smaller. -/
def minXFold (pts : List WirePoint) : Int :=
  pts.foldl (fun a p => if p.x < a then p.x else a) INT_MAX

/-- Top-left y fold of `Wire::calculateBoundingRect`. -/
def minYFold (pts : List WirePoint) : Int :=
  pts.foldl (fun a p => if p.y < a then p.y else a) INT_MAX

/-- Bottom-right x fold of `Wire::calculateBoundingRect`:
start from `INT_MIN`, replace whenever a point's x is larger. -/
def maxXFold (pts : List WirePoint) : Int :=
  pts.foldl (fun a p => if p.x > a then p.x else a) INT_MIN

/-- Bottom-right y fold of `Wire::calculateBoundingRect`. -/
def maxYFold (pts : List WirePoint) : Int :=
  pts.foldl (fun a p => if p.y > a then p.y else a) INT_MIN

/-- The rectangle `Wire::calculateBoundingRect` computes:
`QRectF(topLeft * _settings.gridSize, bottomRight * _settings.gridSize)`. -/
def computedRect (pts : List WirePoint) (g : Int) : Rect :=
  ⟨minXFold pts * g, minYFold pts * g, maxXFold pts * g, maxYFold pts * g⟩

/-- `Wire::calculateBoundingRect`: recompute `_rect` from `_points`. -/
def calculateBoundingRect (s : WireState) : WireState :=
  { s with rect := computedRect s.points s.gridSize }

/-- `Wire::update`: calls `calculateBoundingRect()` and then `Item::update()`
(the latter only schedules a repaint in the host scene graph, it does not
touch the state modelled here). -/
def update (s : WireState) : WireState :=
  calculateBoundingRect s

/-- `emit pointMoved(*this, p)`: append the event to the trace. -/
def emitPointMoved (s : WireState) (p : WirePoint) : WireState :=
  { s with emitted := s.emitted ++ [(s.wireId, p)] }

/-- `Wire::prependPoint(point)`: prepend `WirePoint(point - gridPoint())`,
recompute bounds, `update()`, then emit `pointMoved(*this, _points.first())`. -/
def prependPoint (s : WireState) (px py : Int) : WireState :=
  let s1 : WireState :=
    { s with points := mkWirePoint (px - s.gridX) (py - s.gridY) :: s.points }
  let s2 := update (calculateBoundingRect s1)
  emitPointMoved s2 (s2.points.headD default)

/-- `Wire::appendPoint(point)`: append `WirePoint(point - gridPoint())`,
recompute bounds, `update()`, then emit `pointMoved(*this, _points.last())`. -/
def appendPoint (s : WireState) (px py : Int) : WireState :=
  let s1 : WireState :=
    { s with points := s.points ++ [mkWirePoint (px - s.gridX) (py - s.gridY)] }
  let s2 := update (calculateBoundingRect s1)
  emitPointMoved s2 (s2.points.getLastD default)

/-- `QList::insert(index, value)` for `0 ≤ index ≤ size`. -/
def insertAt : Nat → WirePoint → List WirePoint → List WirePoint
  | 0, p, l => p :: l
  | _ + 1, p, [] => [p]
  | n + 1, p, q :: l => q :: insertAt n p l

/-- `Wire::insertPoint(index, point)`: boundary check
`index < 0 || index >= _points.count()` returns with no change at all;
otherwise insert `WirePoint(point - gridPoint())` at `index`, recompute
bounds, `update()`, emit `pointMoved(*this, _points[index])`. -/
def insertPoint (s : WireState) (index : Int) (px py : Int) : WireState :=
  if index < 0 ∨ index ≥ (s.points.length : Int) then s
  else
    let s1 : WireState :=
      { s with points := insertAt index.toNat (mkWirePoint (px - s.gridX) (py - s.gridY)) s.points }
    let s2 := update (calculateBoundingRect s1)
    emitPointMoved s2 (s2.points.getD index.toNat default)

/-- `Wire::removeFirstPoint`: no-op when `_points.count() <= 0`; otherwise
remove the first point, recompute bounds, `update()`.  No signal is emitted. -/
def removeFirstPoint (s : WireState) : WireState :=
  if s.points.length ≤ 0 then s
  else update (calculateBoundingRect { s with points := s.points.tail })

/-- `Wire::removeLastPoint`: no-op when `_points.count() <= 0`; otherwise
remove the last point, recompute bounds, `update()`.  No signal is emitted. -/
def removeLastPoint (s : WireState) : WireState :=
  if s.points.length ≤ 0 then s
  else update (calculateBoundingRect { s with points := s.points.dropLast })

/-- `QList::removeAll(WirePoint(p))` under position-only equality:
remove every point whose position equals `(x, y)`. -/
def removeAllPos (l : List WirePoint) (x y : Int) : List WirePoint :=
  l.filter (fun q => ¬ (q.x = x ∧ q.y = y))

/-- `Wire::removePoint(point)`:
`_points.removeAll(WirePoint(point - gridPoint()))`, recompute bounds,
`update()`.  No signal is emitted. -/
def removePoint (s : WireState) (px py : Int) : WireState :=
  update (calculateBoundingRect
    { s with points := removeAllPos s.points (px - s.gridX) (py - s.gridY) })

/-- `Wire::movePointBy(index, moveBy)`: no-op when
`index < 0 || index > _points.count() - 1`; otherwise replace the point with
`WirePoint(_points.at(index).toPoint() + moveBy.toPoint())` (a freshly
constructed point, so the junction flag is reset), recompute bounds,
`update()`, emit `pointMoved(*this, _points[index])`.  The delta is passed
as the integral grid delta `(dx, dy)`; every caller in the source builds the
`QVector2D` from integer grid coordinates, so `QVector2D::toPoint()`
round-trips it exactly. -/
def movePointBy (s : WireState) (index : Int) (dx dy : Int) : WireState :=
  if index < 0 ∨ index > (s.points.length : Int) - 1 then s
  else
    let old := s.points.getD index.toNat default
    let s1 : WireState :=
      { s with points := s.points.set index.toNat (mkWirePoint (old.x + dx) (old.y + dy)) }
    let s2 := update (calculateBoundingRect s1)
    emitPointMoved s2 (s2.points.getD index.toNat default)

/-- `Wire::movePointTo(index, moveTo)`: no-op when
`index < 0 || index > _points.count() - 1`; otherwise replace the point with
`WirePoint(moveTo - gridPoint())`, recompute bounds, `update()`, emit
`pointMoved(*this, _points[index])`. -/
def movePointTo (s : WireState) (index : Int) (tx ty : Int) : WireState :=
  if index < 0 ∨ index > (s.points.length : Int) - 1 then s
  else
    let s1 : WireState :=
      { s with points := s.points.set index.toNat (mkWirePoint (tx - s.gridX) (ty - s.gridY)) }
    let s2 := update (calculateBoundingRect s1)
    emitPointMoved s2 (s2.points.getD index.toNat default)

/-- `Wire::moveLineSegmentBy(index, moveBy)`: boundary check
`index < 0 || index > _points.count() - 1` (the same point-index check as
`movePointBy`, not a segment-index check), then `movePointBy(index, moveBy)`
followed by `movePointBy(index + 1, moveBy)`. -/
def moveLineSegmentBy (s : WireState) (index : Int) (dx dy : Int) : WireState :=
  if index < 0 ∨ index > (s.points.length : Int) - 1 then s
  else movePointBy (movePointBy s index dx dy) (index + 1) dx dy

/-- `Wire::setPointIsJunction(index, isJunction)`: no-op when
`index < 0 || index > _points.count() - 1`; otherwise set the flag in place
and call `update()` (which recomputes the bounding rect).  No signal. -/
def setPointIsJunction (s : WireState) (index : Int) (b : Bool) : WireState :=
  if index < 0 ∨ index > (s.points.length : Int) - 1 then s
  else
    let old := s.points.getD index.toNat default
    update { s with points := s.points.set index.toNat ⟨old.x, old.y, b⟩ }

/-- A derived line segment (class `Line`: a pair of endpoints). -/
structure Line where
  x1 : Int
  y1 : Int
  x2 : Int
  y2 : Int
deriving DecidableEq, Repr

/-- Modelled from the spec: `Line::isHorizontal` (in `line.cpp`, not under
`src/`) — spec §4.3 treats a segment as horizontal when both endpoints share
the y coordinate. -/
def Line.isHorizontal (l : Line) : Bool := l.y1 = l.y2

/-- Modelled from the spec: `Line::isVertical` (in `line.cpp`, not under
`src/`) — both endpoints share the x coordinate. -/
def Line.isVertical (l : Line) : Bool := l.x1 = l.x2

/-- The loop body of `Wire::lineSegments`: for consecutive points `p, q`
append `Line(gridPoint() + p.toPoint(), gridPoint() + q.toPoint())`. -/
def lineSegmentsGo (gx gy : Int) : List WirePoint → List Line
  | p :: q :: rest =>
      ⟨gx + p.x, gy + p.y, gx + q.x, gy + q.y⟩ :: lineSegmentsGo gx gy (q :: rest)
  | _ => []

/-- `Wire::lineSegments`: empty when `_points.count() < 2`, otherwise one
`Line` per consecutive pair of points. -/
def lineSegments (s : WireState) : List Line :=
  if s.points.length < 2 then [] else lineSegmentsGo s.gridX s.gridY s.points

/-- `QVector2D::dotProduct(v1, v2)` on integral vectors. -/
def dotI (v1 v2 : Int × Int) : Int := v1.1 * v2.1 + v1.2 * v2.2

/-- The squared euclidean length of an integral vector
(`v.length()` is `sqrt (normSq v)`). -/
def normSq (v : Int × Int) : Int := v.1 * v.1 + v.2 * v.2

/-- Modelled from the spec: the fixed-epsilon numeric comparison
`qFuzzyCompare(dotProduct, absProduct)` of `Wire::removeObsoletePoints`
(`qFuzzyCompare(p1, p2)` is Qt's `|p1 - p2| * 100000 ≤ min |p1| |p2|`,
i.e. a relative tolerance of `ε = 1/100000`), expressed in exact integer
arithmetic; `float` rounding of the square roots is idealized.

With `d = dot v1 v2` and `N = normSq v1 * normSq v2` (so the compared
product of lengths is `√N ≥ 0`):
* `d < 0` — then `|d - √N| = |d| + √N > ε * min |d| (√N)`, so the
  comparison fails;
* `0 ≤ d` and `d² ≤ N` (`d ≤ √N`, the minimum is `d`) —
  `√N - d ≤ ε d ↔ √N ≤ (1+ε) d ↔ 100000² N ≤ 100001² d²`;
* `0 ≤ d` and `N < d²` (`√N < d`, the minimum is `√N`) —
  `d - √N ≤ ε √N ↔ d ≤ (1+ε) √N ↔ 100000² d² ≤ 100001² N`. -/
def fuzzySameDir (v1 v2 : Int × Int) : Bool :=
  let d := dotI v1 v2
  let N := normSq v1 * normSq v2
  if d < 0 then false
  else if d * d ≤ N then decide (100000 ^ 2 * N ≤ 100001 ^ 2 * (d * d))
  else decide (100000 ^ 2 * (d * d) ≤ 100001 ^ 2 * N)

/-- The marking loop of `Wire::removeObsoletePoints`: for every index
`2 ≤ i < count` over the original sequence, with `p1, p2, p3` the points at
`i-2, i-1, i`, append `_points[i-1]` to `pointsToRemove` when
`qFuzzyCompare(dot (p2-p1) (p3-p2), |p2-p1|·|p3-p2|)` holds. -/
def collectObsoleteGo : List WirePoint → List WirePoint
  | p1 :: p2 :: p3 :: rest =>
      (if fuzzySameDir (p2.x - p1.x, p2.y - p1.y) (p3.x - p2.x, p3.y - p2.y)
       then [p2] else []) ++ collectObsoleteGo (p2 :: p3 :: rest)
  | _ => []

/-- `Wire::removeObsoletePoints`: returns `0` without touching anything when
`_points.count() < 3`; otherwise collects the obsolete points in a single
pass over the original sequence, then calls `removePoint(point.toPoint())`
for each collected point (note: `removePoint` expects an absolute position
and subtracts `gridPoint()`, but is handed the stored anchor-relative
position here), and returns `pointsToRemove.count()`. -/
def removeObsoletePoints (s : WireState) : WireState × Nat :=
  if s.points.length < 3 then (s, 0)
  else
    let toRemove := collectObsoleteGo s.points
    (toRemove.foldl (fun st p => removePoint st p.x p.y) s, toRemove.length)

/-- A two-point wire used to exercise the boundary check of
`moveLineSegmentBy` at `index = pointCount - 1`. -/
def sampleTwoPoints : WireState :=
  ⟨0, 0, 0, 1, [⟨0, 0, false⟩, ⟨1, 0, false⟩], ⟨0, 0, 1, 0⟩, [], -1, -1, 0, 0⟩

/-- A wire with anchor `(0,0)` and three collinear same-direction points
`[(0,0), (0,5), (0,10)]` (the first concrete case of C4). -/
def sampleCollinear : WireState :=
  ⟨0, 0, 0, 1, [⟨0, 0, false⟩, ⟨0, 5, false⟩, ⟨0, 10, false⟩], ⟨0, 0, 0, 10⟩, [], -1, -1, 0, 0⟩

/-- A wire with anchor `(0,0)` and an orthogonal corner
`[(0,0), (5,0), (5,5)]` (the second concrete case of C4). -/
def sampleOrthogonal : WireState :=
  ⟨0, 0, 0, 1, [⟨0, 0, false⟩, ⟨5, 0, false⟩, ⟨5, 5, false⟩], ⟨0, 0, 5, 5⟩, [], -1, -1, 0, 0⟩

/-- A wire whose anchor is `(5,5)` with stored points
`[(0,0), (0,1), (0,2)]` — the middle point is collinear with its
neighbours in the same direction. -/
def sampleAnchored : WireState :=
  ⟨0, 5, 5, 1, [⟨0, 0, false⟩, ⟨0, 1, false⟩, ⟨0, 2, false⟩], ⟨0, 0, 0, 2⟩, [], -1, -1, 0, 0⟩

/-- `_points.count(point)` under the position-only equality of
`WirePoint::operator==`: the number of points at position `t`. -/
def countPos (l : List WirePoint) (t : Int × Int) : Nat :=
  (l.filter (fun q => posOf q = t)).length

/-- `QList::removeOne(point)` under position-only equality: remove the
first point at position `t`, if any. -/
def removeOnePos : List WirePoint → Int × Int → List WirePoint
  | [], _ => []
  | q :: rest, t => if posOf q = t then rest else q :: removeOnePos rest t

/-- `n` successive `removeOne` calls for the same position. -/
def removeNPos (l : List WirePoint) (t : Int × Int) : Nat → List WirePoint
  | 0 => l
  | n + 1 => removeNPos (removeOnePos l t) t n

/-- One round of the inner `for` loop of `Wire::removeDuplicatePoints`:
for each point of the round's snapshot of the sequence, take
`count = _points.count(point)` on the working sequence and, when
`count > 1`, call `removeOne` `count - 1` times, adding `count - 1` to
`removedCount`.  (The C++ range-iterates the container it is mutating;
we iterate the sequence as it was when the round began, which is the
elementwise behaviour the loop is written for.) -/
def innerPassGo : List WirePoint → List WirePoint → Nat → List WirePoint × Nat
  | [], cur, cnt => (cur, cnt)
  | p :: snap, cur, cnt =>
      if countPos cur (posOf p) > 1 then
        innerPassGo snap (removeNPos cur (posOf p) (countPos cur (posOf p) - 1))
          (cnt + (countPos cur (posOf p) - 1))
      else innerPassGo snap cur cnt

/-- The `allUnique` re-check of `Wire::removeDuplicatePoints`: every point's
position occurs at most once. -/
def allUniqueB (l : List WirePoint) : Bool :=
  l.all (fun p => countPos l (posOf p) ≤ 1)

/-- The `do ... while (!allUnique)` loop of `Wire::removeDuplicatePoints`,
with an explicit fuel bound (each round that finds a duplicate shortens the
sequence, and the loop in fact always exits after the first round). -/
def removeDupLoop : Nat → List WirePoint → Nat → List WirePoint × Nat
  | 0, cur, cnt => (cur, cnt)
  | fuel + 1, cur, cnt =>
      if allUniqueB (innerPassGo cur cur cnt).1 then innerPassGo cur cur cnt
      else removeDupLoop fuel (innerPassGo cur cur cnt).1 (innerPassGo cur cur cnt).2

/-- `Wire::removeDuplicatePoints`: run the rounds, return the new sequence
and the total `removedCount`.  Neither `_rect` nor the signal trace is
touched. -/
def removeDuplicatePoints (s : WireState) : WireState × Nat :=
  let r := removeDupLoop (s.points.length + 1) s.points 0
  ({ s with points := r.1 }, r.2)

/-- The bounds invariant the host relies on (spec §4.4): whenever the
sequence is nonempty, the stored `_rect` is exactly the rectangle
`calculateBoundingRect` computes from the current points.  (On an empty
sequence the computed rectangle is the meaningless sentinel pair
`(INT_MAX, INT_MAX) × (INT_MIN, INT_MIN)`; the spec declares bounds
undefined there and requires callers to guard.) -/
def BoundsInv (s : WireState) : Prop :=
  s.points ≠ [] → s.rect = computedRect s.points s.gridSize

/-- A two-point wire with cell size `2` whose stored rectangle satisfies
the bounds invariant (`minX = -1, minY = 2, maxX = 1, maxY = 5`, scaled). -/
def sampleBounded : WireState :=
  ⟨0, 0, 0, 2, [⟨1, 2, false⟩, ⟨-1, 5, false⟩], ⟨-2, 4, 2, 10⟩, [], -1, -1, 0, 0⟩

/-- A one-point wire whose removal demonstrates the missing notification. -/
def sampleOnePoint : WireState :=
  ⟨0, 0, 0, 1, [⟨0, 0, false⟩], ⟨0, 0, 0, 0⟩, [], -1, -1, 0, 0⟩

/-- The `moveLineBy` computation of `Wire::mouseMoveEvent` for the
segment-dragging branch: start from `QVector2D(0, 0)`; if the grabbed line
is horizontal keep only the vertical pointer delta, if vertical only the
horizontal delta, otherwise the full delta when Ctrl is pressed. -/
def mouseSegmentDelta (line : Line) (curX curY prevX prevY : Int)
    (ctrl : Bool) : Int × Int :=
  if line.isHorizontal then (0, curY - prevY)
  else if line.isVertical then (curX - prevX, 0)
  else if ctrl then (curX - prevX, curY - prevY)
  else (0, 0)

/-- `Wire::mouseMoveEvent`: `curPos` is the grid-snapped pointer position
(`_settings.toGridPoint(event->scenePos())`, supplied by the external
`CoordinateTransform`) and `ctrl` the polled Ctrl-modifier state.  When a
point handle is grabbed, `movePointTo`; when a line segment is grabbed,
`moveLineSegmentBy` with the axis-constrained delta computed from
`lineSegments().at(_lineSegmentToMoveIndex)`; otherwise the event goes to
`Item::mouseMoveEvent` (external: it drags the whole item and touches none
of the state modelled here).  In every case `_prevMousePos = curPos`
afterwards (the assignment is written once after the branch in C++ and is
distributed into the branches here; no branch reads `_prevMousePos` after
computing its delta). -/
def mouseMoveEvent (s : WireState) (curX curY : Int) (ctrl : Bool) : WireState :=
  if s.pointToMoveIndex > -1 then
    { movePointTo s s.pointToMoveIndex curX curY with prevX := curX, prevY := curY }
  else if s.lineSegmentToMoveIndex > -1 then
    { moveLineSegmentBy s s.lineSegmentToMoveIndex
        (mouseSegmentDelta
          ((lineSegments s).getD s.lineSegmentToMoveIndex.toNat ⟨0, 0, 0, 0⟩)
          curX curY s.prevX s.prevY ctrl).1
        (mouseSegmentDelta
          ((lineSegments s).getD s.lineSegmentToMoveIndex.toNat ⟨0, 0, 0, 0⟩)
          curX curY s.prevX s.prevY ctrl).2
      with prevX := curX, prevY := curY }
  else { s with prevX := curX, prevY := curY }

theorem lineSegmentsGo_length (gx gy : Int) :
    (l : List WirePoint) → (lineSegmentsGo gx gy l).length = l.length - 1
  | [] => rfl
  | [_] => rfl
  | p :: q :: rest => by
      have ih := lineSegmentsGo_length gx gy (q :: rest)
      simp only [lineSegmentsGo, List.length_cons] at ih ⊢
      omega

/-- C9: for every wire state, the number of derived segments returned by
`lineSegments` equals `max (pointCount - 1) 0`; in particular it is `0` for
an empty or single-point sequence. -/
theorem C9_segment_count (s : WireState) :
    ((lineSegments s).length : Int) = max ((s.points.length : Int) - 1) 0 := by
  unfold lineSegments
  by_cases h : s.points.length < 2
  · simp only [h, if_true, List.length_nil]
    omega
  · simp only [h, if_false]
    have := lineSegmentsGo_length s.gridX s.gridY s.points
    omega

/-- C7: `insertPoint` with `index < 0` or `index ≥ pointCount` is a silent
no-op: the whole state — points, positions, order, junction flags, bounding
rect, and the emission trace — is unchanged. -/
theorem C7_insert_out_of_range_noop (s : WireState) (index px py : Int)
    (h : index < 0 ∨ index ≥ (s.points.length : Int)) :
    insertPoint s index px py = s := by
  unfold insertPoint
  rw [if_pos h]

/-- C7 witness: inserting at `index = pointCount` (the current end) of a
two-point wire is rejected, leaving the state unchanged. -/
theorem C7_witness :
    insertPoint
      ⟨0, 0, 0, 1, [⟨0, 0, false⟩, ⟨1, 0, false⟩], ⟨0, 0, 1, 0⟩, [], -1, -1, 0, 0⟩
      2 5 5 =
      ⟨0, 0, 0, 1, [⟨0, 0, false⟩, ⟨1, 0, false⟩], ⟨0, 0, 1, 0⟩, [], -1, -1, 0, 0⟩ :=
  C7_insert_out_of_range_noop _ 2 5 5 (by decide)

theorem normSq_nonneg (v : Int × Int) : 0 ≤ normSq v :=
  add_nonneg (mul_self_nonneg v.1) (mul_self_nonneg v.2)

/-- C1: the claim says `moveLineSegmentBy(i, d)` is a silent no-op whenever
`i` is outside the valid segment range `0 ≤ i ≤ pointCount - 2`, and
otherwise moves both endpoints.  The code's boundary check accepts
`i = pointCount - 1` (it reuses the point-index check
`index > _points.count() - 1`): on the two-point wire `[(0,0), (1,0)]`,
`moveLineSegmentBy(1, (0,1))` moves point `1` alone (its partner
`movePointBy(2, ·)` is rejected), yielding `[(0,0), (1,1)]` — neither a
no-op nor a move of both endpoints of a segment. -/
theorem C1_out_of_range_segment_moves_one_endpoint :
    (moveLineSegmentBy sampleTwoPoints 1 0 1).points = [⟨0, 0, false⟩, ⟨1, 1, false⟩] ∧
    sampleTwoPoints.points = [⟨0, 0, false⟩, ⟨1, 0, false⟩] ∧
    (1 : Int) > sampleTwoPoints.points.length - 2 := by
  refine ⟨?_, rfl, by decide⟩
  decide

/-- C4: `removeObsoletePoints` on `[(0,0), (0,5), (0,10)]` removes `(0,5)`,
returns `1` and leaves `[(0,0), (0,10)]`; on `[(0,0), (5,0), (5,5)]` it
returns `0` and leaves the whole state unchanged.  In general an interior
point `p2` of a triple `(p1, p2, p3)` is marked obsolete exactly when the
fixed-epsilon comparison of `dot(v1, v2)` with `|v1|·|v2|` succeeds
(`fuzzySameDir`); consequently opposite-direction neighbours
(`dot < 0`) and orthogonal neighbours (`dot = 0` with both segments of
nonzero length) are never marked, while same-direction collinear
neighbours (`v2` a positive scalar multiple of `v1`) always are. -/
theorem C4_collinearity_simplification :
    ((removeObsoletePoints sampleCollinear).1.points = [⟨0, 0, false⟩, ⟨0, 10, false⟩] ∧
      (removeObsoletePoints sampleCollinear).2 = 1) ∧
    ((removeObsoletePoints sampleOrthogonal).1 = sampleOrthogonal ∧
      (removeObsoletePoints sampleOrthogonal).2 = 0) ∧
    (∀ v1 v2 : Int × Int, dotI v1 v2 < 0 → fuzzySameDir v1 v2 = false) ∧
    (∀ v1 v2 : Int × Int, dotI v1 v2 = 0 → normSq v1 ≠ 0 → normSq v2 ≠ 0 →
      fuzzySameDir v1 v2 = false) ∧
    (∀ (v : Int × Int) (c : Int), 0 < c → fuzzySameDir v (c * v.1, c * v.2) = true) ∧
    (∀ p1 p2 p3 : WirePoint, collectObsoleteGo [p1, p2, p3] =
      (if fuzzySameDir (p2.x - p1.x, p2.y - p1.y) (p3.x - p2.x, p3.y - p2.y)
       then [p2] else [])) := by
  refine ⟨⟨by decide, by decide⟩, ⟨by decide, by decide⟩, ?_, ?_, ?_, ?_⟩
  · intro v1 v2 h
    simp only [fuzzySameDir]
    rw [if_pos h]
  · intro v1 v2 h h1 h2
    have hN1 : 0 < normSq v1 := lt_of_le_of_ne (normSq_nonneg v1) (Ne.symm h1)
    have hN2 : 0 < normSq v2 := lt_of_le_of_ne (normSq_nonneg v2) (Ne.symm h2)
    have hN : 0 < normSq v1 * normSq v2 := mul_pos hN1 hN2
    simp only [fuzzySameDir, h]
    norm_num
    intro
    nlinarith
  · intro v c hc
    have h0 : 0 ≤ normSq v := normSq_nonneg v
    have hd : dotI v (c * v.1, c * v.2) = c * normSq v := by
      simp only [dotI, normSq]
      ring
    have hN : normSq (c * v.1, c * v.2) = c ^ 2 * normSq v := by
      simp only [normSq]
      ring
    simp only [fuzzySameDir, hd, hN]
    rw [if_neg (not_lt.mpr (mul_nonneg hc.le h0))]
    have h2 : c * normSq v * (c * normSq v) = normSq v * (c ^ 2 * normSq v) := by ring
    rw [if_pos (le_of_eq h2)]
    rw [decide_eq_true_eq]
    nlinarith [mul_self_nonneg (c * normSq v)]
  · intro p1 p2 p3
    simp [collectObsoleteGo]

/-- C4 witness: the general conjuncts applied at concrete vectors — the
orthogonal pair `(0,1)`, `(1,0)` is kept, the opposite-direction pair
`(0,1)`, `(0,-1)` is kept, and the same-direction pair `(1,2)`, `3·(1,2)`
is marked. -/
theorem C4_witness :
    fuzzySameDir (0, 1) (1, 0) = false ∧
    fuzzySameDir (0, 1) (0, -1) = false ∧
    fuzzySameDir (1, 2) (3 * (1 : Int), 3 * (2 : Int)) = true :=
  ⟨C4_collinearity_simplification.2.2.2.1 (0, 1) (1, 0) (by decide) (by decide) (by decide),
   C4_collinearity_simplification.2.2.1 (0, 1) (0, -1) (by decide),
   C4_collinearity_simplification.2.2.2.2.1 (1, 2) 3 (by decide)⟩

/-- C5: the claim says the value returned by `removeObsoletePoints` equals
the number of points actually removed.  The code returns
`pointsToRemove.count()` but hands each collected point's *stored relative*
position to `removePoint`, which subtracts the anchor `gridPoint()` again:
on a wire anchored at `(5,5)` with stored points `[(0,0), (0,1), (0,2)]`,
the middle point is marked, `removePoint` then removes all points at
`(0,1) - (5,5) = (-5,-4)` — none — so the call returns `1` while removing
nothing. -/
theorem C5_return_ne_removed :
    (removeObsoletePoints sampleAnchored).2 = 1 ∧
    (removeObsoletePoints sampleAnchored).1.points = sampleAnchored.points := by
  constructor
  · decide
  · decide

theorem countPos_le_length (l : List WirePoint) (t : Int × Int) :
    countPos l t ≤ l.length :=
  List.length_filter_le _ _

theorem countPos_cons (p : WirePoint) (l : List WirePoint) (t : Int × Int) :
    countPos (p :: l) t = (if posOf p = t then 1 else 0) + countPos l t := by
  by_cases h : posOf p = t <;> simp [countPos, List.filter_cons, h, Nat.add_comm]

theorem countPos_pos_mem {l : List WirePoint} {t : Int × Int}
    (h : 0 < countPos l t) : t ∈ l.map posOf := by
  obtain ⟨q, hq⟩ := List.exists_mem_of_length_pos h
  have hq' := List.mem_filter.mp hq
  have : posOf q = t := by simpa using hq'.2
  exact List.mem_map.mpr ⟨q, hq'.1, this⟩

theorem countPos_removeOnePos (t q : Int × Int) (l : List WirePoint) :
    countPos (removeOnePos l t) q =
      if q = t then countPos l q - 1 else countPos l q := by
  induction l with
  | nil => by_cases hq : q = t <;> simp [removeOnePos, countPos, hq]
  | cons p l ih =>
      rw [removeOnePos]
      by_cases hp : posOf p = t
      · rw [if_pos hp]
        by_cases hq : q = t
        · subst hq
          rw [if_pos rfl, countPos_cons, if_pos hp]
          omega
        · rw [if_neg hq, countPos_cons]
          have hne : ¬ posOf p = q := fun h => hq (h ▸ hp ▸ rfl)
          rw [if_neg (by rw [hp]; exact fun h => hq h.symm)]
          omega
      · rw [if_neg hp, countPos_cons, countPos_cons, ih]
        by_cases hq : q = t
        · subst hq
          rw [if_pos rfl, if_pos rfl]
          rw [if_neg hp]
          omega
        · rw [if_neg hq, if_neg hq]

theorem length_removeOnePos (t : Int × Int) (l : List WirePoint) :
    (removeOnePos l t).length =
      if 0 < countPos l t then l.length - 1 else l.length := by
  induction l with
  | nil => simp [removeOnePos, countPos]
  | cons p l ih =>
      rw [removeOnePos]
      by_cases hp : posOf p = t
      · rw [if_pos hp]
        have : 0 < countPos (p :: l) t := by rw [countPos_cons, if_pos hp]; omega
        rw [if_pos this]
        simp
      · rw [if_neg hp]
        simp only [List.length_cons, ih, countPos_cons, if_neg hp]
        by_cases h0 : 0 < countPos l t
        · rw [if_pos h0, if_pos (by omega)]
          have := countPos_le_length l t
          omega
        · rw [if_neg h0, if_neg (by omega)]

theorem removeNPos_spec (t : Int × Int) :
    ∀ (n : Nat) (l : List WirePoint), n ≤ countPos l t →
      (removeNPos l t n).length = l.length - n ∧
      countPos (removeNPos l t n) t = countPos l t - n ∧
      (∀ q, q ≠ t → countPos (removeNPos l t n) q = countPos l q)
  | 0, l, _ => ⟨rfl, by simp [removeNPos], fun q _ => rfl⟩
  | n + 1, l, h => by
      have h0 : 0 < countPos l t := by omega
      have hc : countPos (removeOnePos l t) t = countPos l t - 1 := by
        rw [countPos_removeOnePos, if_pos rfl]
      have ih := removeNPos_spec t n (removeOnePos l t) (by omega)
      have hlen : (removeOnePos l t).length = l.length - 1 := by
        rw [length_removeOnePos, if_pos h0]
      have hlenp : 0 < l.length := lt_of_lt_of_le h0 (countPos_le_length l t)
      refine ⟨?_, ?_, ?_⟩
      · show (removeNPos (removeOnePos l t) t n).length = l.length - (n + 1)
        rw [ih.1, hlen]
        omega
      · show countPos (removeNPos (removeOnePos l t) t n) t = countPos l t - (n + 1)
        rw [ih.2.1, hc]
        omega
      · intro q hq
        show countPos (removeNPos (removeOnePos l t) t n) q = countPos l q
        rw [ih.2.2 q hq, countPos_removeOnePos, if_neg hq]

theorem innerPassGo_spec :
    ∀ (snap cur : List WirePoint) (cnt : Nat),
      (innerPassGo snap cur cnt).2 + (innerPassGo snap cur cnt).1.length =
        cnt + cur.length ∧
      (∀ t, 0 < countPos (innerPassGo snap cur cnt).1 t ↔ 0 < countPos cur t)
  | [], cur, cnt => by simp [innerPassGo]
  | p :: snap, cur, cnt => by
      rw [innerPassGo]
      by_cases hk : countPos cur (posOf p) > 1
      · rw [if_pos hk]
        have hle : countPos cur (posOf p) - 1 ≤ countPos cur (posOf p) := by omega
        have hspec := removeNPos_spec (posOf p) (countPos cur (posOf p) - 1) cur hle
        have ih := innerPassGo_spec snap
          (removeNPos cur (posOf p) (countPos cur (posOf p) - 1))
          (cnt + (countPos cur (posOf p) - 1))
        constructor
        · rw [ih.1, hspec.1]
          have := countPos_le_length cur (posOf p)
          omega
        · intro t
          rw [ih.2 t]
          by_cases ht : t = posOf p
          · subst ht
            rw [hspec.2.1]
            omega
          · rw [hspec.2.2 t ht]
      · rw [if_neg hk]
        exact innerPassGo_spec snap cur cnt

theorem innerPassGo_unique :
    ∀ (snap cur : List WirePoint) (cnt : Nat),
      (∀ t, countPos cur t ≤ 1 ∨ t ∈ snap.map posOf) →
      ∀ t, countPos (innerPassGo snap cur cnt).1 t ≤ 1
  | [], cur, cnt, H => by
      intro t
      rw [innerPassGo]
      rcases H t with h | h
      · exact h
      · simp at h
  | p :: snap, cur, cnt, H => by
      rw [innerPassGo]
      by_cases hk : countPos cur (posOf p) > 1
      · rw [if_pos hk]
        apply innerPassGo_unique
        intro t
        have hle : countPos cur (posOf p) - 1 ≤ countPos cur (posOf p) := by omega
        have hspec := removeNPos_spec (posOf p) (countPos cur (posOf p) - 1) cur hle
        by_cases ht : t = posOf p
        · left
          subst ht
          rw [hspec.2.1]
          omega
        · rcases H t with h | h
          · left
            rw [hspec.2.2 t ht]
            exact h
          · right
            simp only [List.map_cons, List.mem_cons] at h
            rcases h with h | h
            · exact absurd h ht
            · exact h
      · rw [if_neg hk]
        apply innerPassGo_unique
        intro t
        by_cases ht : t = posOf p
        · left
          subst ht
          omega
        · rcases H t with h | h
          · left
            exact h
          · right
            simp only [List.map_cons, List.mem_cons] at h
            rcases h with h | h
            · exact absurd h ht
            · exact h

theorem innerPassGo_unique_start (l : List WirePoint) (cnt : Nat) :
    ∀ t, countPos (innerPassGo l l cnt).1 t ≤ 1 := by
  apply innerPassGo_unique
  intro t
  by_cases h : countPos l t ≤ 1
  · exact Or.inl h
  · exact Or.inr (countPos_pos_mem (by omega))

theorem allUniqueB_of {l : List WirePoint} (h : ∀ t, countPos l t ≤ 1) :
    allUniqueB l = true := by
  rw [allUniqueB, List.all_eq_true]
  intro p _
  simpa using h (posOf p)

theorem removeDupLoop_eq_pass (fuel : Nat) (l : List WirePoint) (cnt : Nat) :
    removeDupLoop (fuel + 1) l cnt = innerPassGo l l cnt := by
  rw [removeDupLoop, if_pos (allUniqueB_of (innerPassGo_unique_start l cnt))]

theorem nodup_map_posOf :
    ∀ l : List WirePoint, (∀ t, countPos l t ≤ 1) → (l.map posOf).Nodup
  | [], _ => List.nodup_nil
  | p :: l, h => by
      rw [List.map_cons, List.nodup_cons]
      constructor
      · intro hmem
        obtain ⟨q, hq, hpq⟩ := List.mem_map.mp hmem
        have hmf : q ∈ l.filter (fun q => posOf q = posOf p) :=
          List.mem_filter.mpr ⟨hq, by simp [hpq]⟩
        have h1 : 0 < countPos l (posOf p) := List.length_pos_of_mem hmf
        have h2 := h (posOf p)
        rw [countPos_cons, if_pos rfl] at h2
        omega
      · apply nodup_map_posOf
        intro t
        have ht := h t
        rw [countPos_cons] at ht
        omega

/-- C6: for every wire state, after `removeDuplicatePoints` returns no two
points of the sequence share a position, and the returned count equals the
original point count minus the final point count. -/
theorem C6_removeDuplicatePoints_unique_count (s : WireState) :
    ((removeDuplicatePoints s).1.points.map posOf).Nodup ∧
    (removeDuplicatePoints s).2 =
      s.points.length - (removeDuplicatePoints s).1.points.length := by
  have hrw : removeDuplicatePoints s =
      ({ s with points := (innerPassGo s.points s.points 0).1 },
        (innerPassGo s.points s.points 0).2) := by
    unfold removeDuplicatePoints
    rw [removeDupLoop_eq_pass]
  rw [hrw]
  dsimp only
  constructor
  · exact nodup_map_posOf _ (innerPassGo_unique_start s.points 0)
  · have := (innerPassGo_spec s.points s.points 0).1
    omega

theorem foldMin_le_init (f : WirePoint → Int) :
    ∀ (l : List WirePoint) (init : Int),
      l.foldl (fun a p => if f p < a then f p else a) init ≤ init
  | [], _ => le_refl _
  | p :: l, init => by
      rw [List.foldl_cons]
      refine le_trans (foldMin_le_init f l _) ?_
      by_cases h : f p < init
      · rw [if_pos h]
        exact le_of_lt h
      · rw [if_neg h]

theorem foldMin_le_mem (f : WirePoint → Int) :
    ∀ (l : List WirePoint) (init : Int) (p : WirePoint), p ∈ l →
      l.foldl (fun a p => if f p < a then f p else a) init ≤ f p
  | [], _, _, hp => absurd hp (List.not_mem_nil _)
  | q :: l, init, p, hp => by
      rw [List.foldl_cons]
      rcases List.mem_cons.mp hp with h | h
      · subst h
        refine le_trans (foldMin_le_init f l _) ?_
        by_cases h : f p < init
        · rw [if_pos h]
        · rw [if_neg h]
          exact not_lt.mp h
      · exact foldMin_le_mem f l _ p h

theorem foldMin_eq_init_or_mem (f : WirePoint → Int) :
    ∀ (l : List WirePoint) (init : Int),
      l.foldl (fun a p => if f p < a then f p else a) init = init ∨
      ∃ p ∈ l, l.foldl (fun a p => if f p < a then f p else a) init = f p
  | [], _ => Or.inl rfl
  | q :: l, init => by
      rw [List.foldl_cons]
      by_cases hq : f q < init
      · rw [if_pos hq]
        rcases foldMin_eq_init_or_mem f l (f q) with h | ⟨p, hp, h⟩
        · exact Or.inr ⟨q, List.mem_cons_self q l, h⟩
        · exact Or.inr ⟨p, List.mem_cons_of_mem q hp, h⟩
      · rw [if_neg hq]
        rcases foldMin_eq_init_or_mem f l init with h | ⟨p, hp, h⟩
        · exact Or.inl h
        · exact Or.inr ⟨p, List.mem_cons_of_mem q hp, h⟩

theorem foldMin_congr (f : WirePoint → Int) (init : Int) (l1 l2 : List WirePoint)
    (h : ∀ x, (∃ p ∈ l1, f p = x) ↔ (∃ p ∈ l2, f p = x)) :
    l1.foldl (fun a p => if f p < a then f p else a) init =
      l2.foldl (fun a p => if f p < a then f p else a) init := by
  have hle : ∀ (a b : List WirePoint),
      (∀ x, (∃ p ∈ a, f p = x) → (∃ p ∈ b, f p = x)) →
      b.foldl (fun a p => if f p < a then f p else a) init ≤
        a.foldl (fun a p => if f p < a then f p else a) init := by
    intro a b hab
    rcases foldMin_eq_init_or_mem f a init with ha | ⟨p, hp, ha⟩
    · rw [ha]
      exact foldMin_le_init f b init
    · obtain ⟨q, hq, hfq⟩ := hab (f p) ⟨p, hp, rfl⟩
      rw [ha, ← hfq]
      exact foldMin_le_mem f b init q hq
  exact le_antisymm
    (hle l2 l1 (fun x hx => (h x).mpr hx))
    (hle l1 l2 (fun x hx => (h x).mp hx))

theorem foldMax_le_init (f : WirePoint → Int) :
    ∀ (l : List WirePoint) (init : Int),
      init ≤ l.foldl (fun a p => if f p > a then f p else a) init
  | [], _ => le_refl _
  | p :: l, init => by
      rw [List.foldl_cons]
      refine le_trans ?_ (foldMax_le_init f l _)
      by_cases h : f p > init
      · rw [if_pos h]
        exact le_of_lt h
      · rw [if_neg h]

theorem foldMax_le_mem (f : WirePoint → Int) :
    ∀ (l : List WirePoint) (init : Int) (p : WirePoint), p ∈ l →
      f p ≤ l.foldl (fun a p => if f p > a then f p else a) init
  | [], _, _, hp => absurd hp (List.not_mem_nil _)
  | q :: l, init, p, hp => by
      rw [List.foldl_cons]
      rcases List.mem_cons.mp hp with h | h
      · subst h
        refine le_trans ?_ (foldMax_le_init f l _)
        by_cases h : f p > init
        · rw [if_pos h]
        · rw [if_neg h]
          exact not_lt.mp h
      · exact foldMax_le_mem f l _ p h

theorem foldMax_eq_init_or_mem (f : WirePoint → Int) :
    ∀ (l : List WirePoint) (init : Int),
      l.foldl (fun a p => if f p > a then f p else a) init = init ∨
      ∃ p ∈ l, l.foldl (fun a p => if f p > a then f p else a) init = f p
  | [], _ => Or.inl rfl
  | q :: l, init => by
      rw [List.foldl_cons]
      by_cases hq : f q > init
      · rw [if_pos hq]
        rcases foldMax_eq_init_or_mem f l (f q) with h | ⟨p, hp, h⟩
        · exact Or.inr ⟨q, List.mem_cons_self q l, h⟩
        · exact Or.inr ⟨p, List.mem_cons_of_mem q hp, h⟩
      · rw [if_neg hq]
        rcases foldMax_eq_init_or_mem f l init with h | ⟨p, hp, h⟩
        · exact Or.inl h
        · exact Or.inr ⟨p, List.mem_cons_of_mem q hp, h⟩

theorem foldMax_congr (f : WirePoint → Int) (init : Int) (l1 l2 : List WirePoint)
    (h : ∀ x, (∃ p ∈ l1, f p = x) ↔ (∃ p ∈ l2, f p = x)) :
    l1.foldl (fun a p => if f p > a then f p else a) init =
      l2.foldl (fun a p => if f p > a then f p else a) init := by
  have hle : ∀ (a b : List WirePoint),
      (∀ x, (∃ p ∈ a, f p = x) → (∃ p ∈ b, f p = x)) →
      a.foldl (fun a p => if f p > a then f p else a) init ≤
        b.foldl (fun a p => if f p > a then f p else a) init := by
    intro a b hab
    rcases foldMax_eq_init_or_mem f a init with ha | ⟨p, hp, ha⟩
    · rw [ha]
      exact foldMax_le_init f b init
    · obtain ⟨q, hq, hfq⟩ := hab (f p) ⟨p, hp, rfl⟩
      rw [ha, ← hfq]
      exact foldMax_le_mem f b init q hq
  exact le_antisymm
    (hle l1 l2 (fun x hx => (h x).mp hx))
    (hle l2 l1 (fun x hx => (h x).mpr hx))

theorem mem_map_posOf_iff_countPos (l : List WirePoint) (t : Int × Int) :
    t ∈ l.map posOf ↔ 0 < countPos l t := by
  constructor
  · intro h
    obtain ⟨q, hq, hpq⟩ := List.mem_map.mp h
    exact List.length_pos_of_mem (List.mem_filter.mpr ⟨hq, by simp [hpq]⟩)
  · exact countPos_pos_mem

theorem computedRect_congr (l1 l2 : List WirePoint) (g : Int)
    (h : ∀ t, t ∈ l1.map posOf ↔ t ∈ l2.map posOf) :
    computedRect l1 g = computedRect l2 g := by
  have hx : ∀ x, (∃ p ∈ l1, p.x = x) ↔ (∃ p ∈ l2, p.x = x) := by
    intro x
    constructor
    · rintro ⟨p, hp, rfl⟩
      obtain ⟨q, hq, hpq⟩ := List.mem_map.mp ((h (posOf p)).mp
        (List.mem_map.mpr ⟨p, hp, rfl⟩))
      exact ⟨q, hq, congrArg Prod.fst hpq⟩
    · rintro ⟨p, hp, rfl⟩
      obtain ⟨q, hq, hpq⟩ := List.mem_map.mp ((h (posOf p)).mpr
        (List.mem_map.mpr ⟨p, hp, rfl⟩))
      exact ⟨q, hq, congrArg Prod.fst hpq⟩
  have hy : ∀ y, (∃ p ∈ l1, p.y = y) ↔ (∃ p ∈ l2, p.y = y) := by
    intro y
    constructor
    · rintro ⟨p, hp, rfl⟩
      obtain ⟨q, hq, hpq⟩ := List.mem_map.mp ((h (posOf p)).mp
        (List.mem_map.mpr ⟨p, hp, rfl⟩))
      exact ⟨q, hq, congrArg Prod.snd hpq⟩
    · rintro ⟨p, hp, rfl⟩
      obtain ⟨q, hq, hpq⟩ := List.mem_map.mp ((h (posOf p)).mpr
        (List.mem_map.mpr ⟨p, hp, rfl⟩))
      exact ⟨q, hq, congrArg Prod.snd hpq⟩
  unfold computedRect minXFold minYFold maxXFold maxYFold
  rw [foldMin_congr WirePoint.x INT_MAX l1 l2 hx,
      foldMin_congr WirePoint.y INT_MAX l1 l2 hy,
      foldMax_congr WirePoint.x INT_MIN l1 l2 hx,
      foldMax_congr WirePoint.y INT_MIN l1 l2 hy]

theorem boundsInv_prependPoint (s : WireState) (px py : Int) :
    BoundsInv (prependPoint s px py) := fun _ => rfl

theorem boundsInv_appendPoint (s : WireState) (px py : Int) :
    BoundsInv (appendPoint s px py) := fun _ => rfl

theorem boundsInv_removePoint (s : WireState) (px py : Int) :
    BoundsInv (removePoint s px py) := fun _ => rfl

theorem boundsInv_insertPoint (s : WireState) (i px py : Int) (h : BoundsInv s) :
    BoundsInv (insertPoint s i px py) := by
  unfold insertPoint
  split
  · exact h
  · exact fun _ => rfl

theorem boundsInv_removeFirstPoint (s : WireState) (h : BoundsInv s) :
    BoundsInv (removeFirstPoint s) := by
  unfold removeFirstPoint
  split
  · exact h
  · exact fun _ => rfl

theorem boundsInv_removeLastPoint (s : WireState) (h : BoundsInv s) :
    BoundsInv (removeLastPoint s) := by
  unfold removeLastPoint
  split
  · exact h
  · exact fun _ => rfl

theorem boundsInv_movePointBy (s : WireState) (i dx dy : Int) (h : BoundsInv s) :
    BoundsInv (movePointBy s i dx dy) := by
  unfold movePointBy
  split
  · exact h
  · exact fun _ => rfl

theorem boundsInv_movePointTo (s : WireState) (i tx ty : Int) (h : BoundsInv s) :
    BoundsInv (movePointTo s i tx ty) := by
  unfold movePointTo
  split
  · exact h
  · exact fun _ => rfl

theorem boundsInv_moveLineSegmentBy (s : WireState) (i dx dy : Int) (h : BoundsInv s) :
    BoundsInv (moveLineSegmentBy s i dx dy) := by
  unfold moveLineSegmentBy
  split
  · exact h
  · exact boundsInv_movePointBy _ _ _ _ (boundsInv_movePointBy _ _ _ _ h)

theorem boundsInv_setPointIsJunction (s : WireState) (i : Int) (b : Bool)
    (h : BoundsInv s) : BoundsInv (setPointIsJunction s i b) := by
  unfold setPointIsJunction
  split
  · exact h
  · exact fun _ => rfl

theorem boundsInv_foldl_removePoint :
    ∀ (l : List WirePoint) (s : WireState), BoundsInv s →
      BoundsInv (l.foldl (fun st p => removePoint st p.x p.y) s)
  | [], _, h => h
  | p :: l, s, _ => by
      rw [List.foldl_cons]
      exact boundsInv_foldl_removePoint l _ (boundsInv_removePoint s p.x p.y)

theorem boundsInv_removeObsoletePoints (s : WireState) (h : BoundsInv s) :
    BoundsInv (removeObsoletePoints s).1 := by
  unfold removeObsoletePoints
  split
  · exact h
  · exact boundsInv_foldl_removePoint (collectObsoleteGo s.points) s h

theorem boundsInv_removeDuplicatePoints (s : WireState) (h : BoundsInv s) :
    BoundsInv (removeDuplicatePoints s).1 := by
  have hrw : removeDuplicatePoints s =
      ({ s with points := (innerPassGo s.points s.points 0).1 },
        (innerPassGo s.points s.points 0).2) := by
    unfold removeDuplicatePoints
    rw [removeDupLoop_eq_pass]
  rw [hrw]
  intro hne
  dsimp only at hne ⊢
  have hiff := (innerPassGo_spec s.points s.points 0).2
  have hmem : ∀ t, t ∈ (innerPassGo s.points s.points 0).1.map posOf ↔
      t ∈ s.points.map posOf := by
    intro t
    rw [mem_map_posOf_iff_countPos, mem_map_posOf_iff_countPos, hiff t]
  have hne' : s.points ≠ [] := by
    intro hempty
    rcases (innerPassGo s.points s.points 0).1.eq_nil_or_concat with hr | ⟨l0, q, hr⟩
    · exact hne hr
    · have hq : posOf q ∈ (innerPassGo s.points s.points 0).1.map posOf := by
        rw [hr]
        simp
      rw [hmem, hempty] at hq
      simp at hq
  rw [h hne']
  exact (computedRect_congr _ _ s.gridSize hmem).symm

theorem rect_contains_points (s : WireState) (h : BoundsInv s)
    (hg : 0 ≤ s.gridSize) :
    ∀ p ∈ s.points,
      s.rect.tlx ≤ p.x * s.gridSize ∧ p.x * s.gridSize ≤ s.rect.brx ∧
      s.rect.tly ≤ p.y * s.gridSize ∧ p.y * s.gridSize ≤ s.rect.bry := by
  intro p hp
  have hne : s.points ≠ [] := by
    intro he
    rw [he] at hp
    exact List.not_mem_nil p hp
  rw [h hne]
  dsimp only [computedRect]
  refine ⟨?_, ?_, ?_, ?_⟩
  · exact mul_le_mul_of_nonneg_right (foldMin_le_mem WirePoint.x s.points INT_MAX p hp) hg
  · exact mul_le_mul_of_nonneg_right (foldMax_le_mem WirePoint.x s.points INT_MIN p hp) hg
  · exact mul_le_mul_of_nonneg_right (foldMin_le_mem WirePoint.y s.points INT_MAX p hp) hg
  · exact mul_le_mul_of_nonneg_right (foldMax_le_mem WirePoint.y s.points INT_MIN p hp) hg

theorem minXFold_attained (pts : List WirePoint) (hne : pts ≠ [])
    (hb : ∀ p ∈ pts, p.x ≤ INT_MAX) : ∃ p ∈ pts, minXFold pts = p.x := by
  rcases foldMin_eq_init_or_mem WirePoint.x pts INT_MAX with h | h
  · obtain ⟨p0, hp0⟩ := List.exists_mem_of_ne_nil pts hne
    refine ⟨p0, hp0, ?_⟩
    have h1 := foldMin_le_mem WirePoint.x pts INT_MAX p0 hp0
    have h2 := hb p0 hp0
    unfold minXFold
    omega
  · exact h

theorem minYFold_attained (pts : List WirePoint) (hne : pts ≠ [])
    (hb : ∀ p ∈ pts, p.y ≤ INT_MAX) : ∃ p ∈ pts, minYFold pts = p.y := by
  rcases foldMin_eq_init_or_mem WirePoint.y pts INT_MAX with h | h
  · obtain ⟨p0, hp0⟩ := List.exists_mem_of_ne_nil pts hne
    refine ⟨p0, hp0, ?_⟩
    have h1 := foldMin_le_mem WirePoint.y pts INT_MAX p0 hp0
    have h2 := hb p0 hp0
    unfold minYFold
    omega
  · exact h

theorem maxXFold_attained (pts : List WirePoint) (hne : pts ≠ [])
    (hb : ∀ p ∈ pts, INT_MIN ≤ p.x) : ∃ p ∈ pts, maxXFold pts = p.x := by
  rcases foldMax_eq_init_or_mem WirePoint.x pts INT_MIN with h | h
  · obtain ⟨p0, hp0⟩ := List.exists_mem_of_ne_nil pts hne
    refine ⟨p0, hp0, ?_⟩
    have h1 := foldMax_le_mem WirePoint.x pts INT_MIN p0 hp0
    have h2 := hb p0 hp0
    unfold maxXFold
    omega
  · exact h

theorem maxYFold_attained (pts : List WirePoint) (hne : pts ≠ [])
    (hb : ∀ p ∈ pts, INT_MIN ≤ p.y) : ∃ p ∈ pts, maxYFold pts = p.y := by
  rcases foldMax_eq_init_or_mem WirePoint.y pts INT_MIN with h | h
  · obtain ⟨p0, hp0⟩ := List.exists_mem_of_ne_nil pts hne
    refine ⟨p0, hp0, ?_⟩
    have h1 := foldMax_le_mem WirePoint.y pts INT_MIN p0 hp0
    have h2 := hb p0 hp0
    unfold maxYFold
    omega
  · exact h

/-- C2: after every structural or positional mutation of the point
sequence (`prependPoint`, `appendPoint`, `insertPoint`, `removeFirstPoint`,
`removeLastPoint`, `removePoint`, `removeDuplicatePoints`,
`removeObsoletePoints`, `movePointBy`, `movePointTo`,
`moveLineSegmentBy`) the stored rectangle still equals the rectangle
recomputed from the current points (`BoundsInv` is preserved — for
`removeDuplicatePoints`, which never calls `calculateBoundingRect`, this
holds because deduplication preserves the set of occupied positions); under
the invariant, with a nonnegative cell size, the rectangle contains every
point's scaled position; and for a nonempty sequence whose coordinates fit
in a C++ `int`, the fold results that make up the computed rectangle's
corners are exactly the componentwise minimum and maximum of the point
positions (which `computedRect` then scales by the cell size). -/
theorem C2_bounds_never_stale :
    (∀ (s : WireState) (px py : Int), BoundsInv s → BoundsInv (prependPoint s px py)) ∧
    (∀ (s : WireState) (px py : Int), BoundsInv s → BoundsInv (appendPoint s px py)) ∧
    (∀ (s : WireState) (i px py : Int), BoundsInv s → BoundsInv (insertPoint s i px py)) ∧
    (∀ s : WireState, BoundsInv s → BoundsInv (removeFirstPoint s)) ∧
    (∀ s : WireState, BoundsInv s → BoundsInv (removeLastPoint s)) ∧
    (∀ (s : WireState) (px py : Int), BoundsInv s → BoundsInv (removePoint s px py)) ∧
    (∀ s : WireState, BoundsInv s → BoundsInv (removeDuplicatePoints s).1) ∧
    (∀ s : WireState, BoundsInv s → BoundsInv (removeObsoletePoints s).1) ∧
    (∀ (s : WireState) (i dx dy : Int), BoundsInv s → BoundsInv (movePointBy s i dx dy)) ∧
    (∀ (s : WireState) (i tx ty : Int), BoundsInv s → BoundsInv (movePointTo s i tx ty)) ∧
    (∀ (s : WireState) (i dx dy : Int), BoundsInv s → BoundsInv (moveLineSegmentBy s i dx dy)) ∧
    (∀ s : WireState, BoundsInv s → 0 ≤ s.gridSize → ∀ p ∈ s.points,
      s.rect.tlx ≤ p.x * s.gridSize ∧ p.x * s.gridSize ≤ s.rect.brx ∧
      s.rect.tly ≤ p.y * s.gridSize ∧ p.y * s.gridSize ≤ s.rect.bry) ∧
    (∀ pts : List WirePoint, pts ≠ [] →
      (∀ p ∈ pts, INT_MIN ≤ p.x ∧ p.x ≤ INT_MAX ∧ INT_MIN ≤ p.y ∧ p.y ≤ INT_MAX) →
      ((∃ p ∈ pts, minXFold pts = p.x) ∧ (∀ p ∈ pts, minXFold pts ≤ p.x)) ∧
      ((∃ p ∈ pts, minYFold pts = p.y) ∧ (∀ p ∈ pts, minYFold pts ≤ p.y)) ∧
      ((∃ p ∈ pts, maxXFold pts = p.x) ∧ (∀ p ∈ pts, p.x ≤ maxXFold pts)) ∧
      ((∃ p ∈ pts, maxYFold pts = p.y) ∧ (∀ p ∈ pts, p.y ≤ maxYFold pts))) := by
  refine ⟨fun s px py _ => boundsInv_prependPoint s px py,
    fun s px py _ => boundsInv_appendPoint s px py,
    fun s i px py h => boundsInv_insertPoint s i px py h,
    boundsInv_removeFirstPoint,
    boundsInv_removeLastPoint,
    fun s px py _ => boundsInv_removePoint s px py,
    boundsInv_removeDuplicatePoints,
    boundsInv_removeObsoletePoints,
    fun s i dx dy h => boundsInv_movePointBy s i dx dy h,
    fun s i tx ty h => boundsInv_movePointTo s i tx ty h,
    fun s i dx dy h => boundsInv_moveLineSegmentBy s i dx dy h,
    rect_contains_points,
    ?_⟩
  intro pts hne hb
  refine ⟨⟨minXFold_attained pts hne (fun p hp => ((hb p hp).2.1)), ?_⟩,
    ⟨minYFold_attained pts hne (fun p hp => ((hb p hp).2.2.2)), ?_⟩,
    ⟨maxXFold_attained pts hne (fun p hp => ((hb p hp).1)), ?_⟩,
    ⟨maxYFold_attained pts hne (fun p hp => ((hb p hp).2.2.1)), ?_⟩⟩
  · exact fun p hp => foldMin_le_mem WirePoint.x pts INT_MAX p hp
  · exact fun p hp => foldMin_le_mem WirePoint.y pts INT_MAX p hp
  · exact fun p hp => foldMax_le_mem WirePoint.x pts INT_MIN p hp
  · exact fun p hp => foldMax_le_mem WirePoint.y pts INT_MIN p hp

/-- C2 witness: on a concrete wire satisfying the invariant, `prependPoint`
preserves it, `removeDuplicatePoints` preserves it, and the stored
rectangle contains the scaled position of the point `(1,2)`. -/
theorem C2_witness :
    BoundsInv (prependPoint sampleBounded 3 4) ∧
    BoundsInv (removeDuplicatePoints sampleBounded).1 ∧
    (sampleBounded.rect.tlx ≤ 1 * sampleBounded.gridSize ∧
      1 * sampleBounded.gridSize ≤ sampleBounded.rect.brx ∧
      sampleBounded.rect.tly ≤ 2 * sampleBounded.gridSize ∧
      2 * sampleBounded.gridSize ≤ sampleBounded.rect.bry) :=
  ⟨C2_bounds_never_stale.1 sampleBounded 3 4 (by unfold BoundsInv; decide),
   C2_bounds_never_stale.2.2.2.2.2.2.1 sampleBounded (by unfold BoundsInv; decide),
   C2_bounds_never_stale.2.2.2.2.2.2.2.2.2.2.2.1 sampleBounded
     (by unfold BoundsInv; decide) (by decide) ⟨1, 2, false⟩ (by decide)⟩

theorem getD_set_self :
    ∀ (l : List WirePoint) (n : Nat), n < l.length → ∀ v : WirePoint,
      (l.set n v).getD n default = v
  | [], n, h, _ => absurd h (by simp)
  | _ :: _, 0, _, _ => rfl
  | _ :: l, n + 1, h, v => getD_set_self l n (by simpa using h) v

theorem getD_set_ne :
    ∀ (l : List WirePoint) (n m : Nat), n ≠ m → ∀ v : WirePoint,
      (l.set n v).getD m default = l.getD m default
  | [], _, _, _, _ => rfl
  | _ :: _, 0, 0, h, _ => absurd rfl h
  | _ :: _, 0, _ + 1, _, _ => rfl
  | _ :: _, _ + 1, 0, _, _ => rfl
  | _ :: l, n + 1, m + 1, h, v => getD_set_ne l n m (fun he => h (he ▸ rfl)) v

theorem getD_insertAt_self :
    ∀ (n : Nat) (p : WirePoint) (l : List WirePoint), n ≤ l.length →
      (insertAt n p l).getD n default = p
  | 0, _, [], _ => rfl
  | 0, _, _ :: _, _ => rfl
  | n + 1, _, [], h => absurd h (by simp)
  | n + 1, p, _ :: l, h => getD_insertAt_self n p l (by simpa using h)

/-- `movePointBy` at a valid index: the point is replaced by its translate
(with the junction flag reset by the fresh `WirePoint` construction), one
`pointMoved` event carrying the wire identity and the updated point is
appended, and every other state field is unchanged. -/
theorem movePointBy_spec (s : WireState) (i : Nat) (dx dy : Int)
    (hi : i < s.points.length) :
    (movePointBy s (i : Int) dx dy).points =
      s.points.set i (mkWirePoint ((s.points.getD i default).x + dx)
        ((s.points.getD i default).y + dy)) ∧
    (movePointBy s (i : Int) dx dy).emitted =
      s.emitted ++ [(s.wireId, mkWirePoint ((s.points.getD i default).x + dx)
        ((s.points.getD i default).y + dy))] ∧
    (movePointBy s (i : Int) dx dy).wireId = s.wireId ∧
    (movePointBy s (i : Int) dx dy).gridX = s.gridX ∧
    (movePointBy s (i : Int) dx dy).gridY = s.gridY ∧
    (movePointBy s (i : Int) dx dy).gridSize = s.gridSize ∧
    (movePointBy s (i : Int) dx dy).pointToMoveIndex = s.pointToMoveIndex ∧
    (movePointBy s (i : Int) dx dy).lineSegmentToMoveIndex = s.lineSegmentToMoveIndex ∧
    (movePointBy s (i : Int) dx dy).prevX = s.prevX ∧
    (movePointBy s (i : Int) dx dy).prevY = s.prevY := by
  have hguard : ¬ ((i : Int) < 0 ∨ (i : Int) > (s.points.length : Int) - 1) := by omega
  have htn : (i : Int).toNat = i := Int.toNat_natCast i
  unfold movePointBy
  rw [if_neg hguard]
  dsimp only [update, calculateBoundingRect, emitPointMoved]
  rw [htn]
  refine ⟨rfl, ?_, rfl, rfl, rfl, rfl, rfl, rfl, rfl, rfl⟩
  rw [getD_set_self s.points i hi]

theorem movePointBy_noop (s : WireState) (i dx dy : Int)
    (h : i < 0 ∨ i > (s.points.length : Int) - 1) :
    movePointBy s i dx dy = s := by
  unfold movePointBy
  rw [if_pos h]

/-- `moveLineSegmentBy` at a valid segment index (`i + 1 < pointCount`):
both endpoints are translated by the same delta and two `pointMoved`
events are appended, in order. -/
theorem moveLineSegmentBy_spec (s : WireState) (i : Nat) (dx dy : Int)
    (hi : i + 1 < s.points.length) :
    (moveLineSegmentBy s (i : Int) dx dy).points =
      (s.points.set i (mkWirePoint ((s.points.getD i default).x + dx)
        ((s.points.getD i default).y + dy))).set (i + 1)
        (mkWirePoint ((s.points.getD (i + 1) default).x + dx)
          ((s.points.getD (i + 1) default).y + dy)) ∧
    (moveLineSegmentBy s (i : Int) dx dy).emitted =
      s.emitted ++ [(s.wireId, mkWirePoint ((s.points.getD i default).x + dx)
          ((s.points.getD i default).y + dy)),
        (s.wireId, mkWirePoint ((s.points.getD (i + 1) default).x + dx)
          ((s.points.getD (i + 1) default).y + dy))] := by
  have hguard : ¬ ((i : Int) < 0 ∨ (i : Int) > (s.points.length : Int) - 1) := by omega
  unfold moveLineSegmentBy
  rw [if_neg hguard]
  have h1 := movePointBy_spec s i dx dy (by omega)
  set s1 := movePointBy s (i : Int) dx dy with hs1
  have hlen1 : s1.points.length = s.points.length := by
    rw [h1.1, List.length_set]
  have h2 := movePointBy_spec s1 (i + 1) dx dy (by omega)
  have hcast : (i : Int) + 1 = ((i + 1 : Nat) : Int) := by push_cast; ring
  rw [hcast]
  have hgd : s1.points.getD (i + 1) default = s.points.getD (i + 1) default := by
    rw [h1.1, getD_set_ne s.points i (i + 1) (by omega)]
  constructor
  · rw [h2.1, hgd, h1.1]
  · rw [h2.2.1, hgd, h1.2.1, h1.2.2.1, List.append_assoc]
    rfl

/-- C3 counterexample: `removeFirstPoint` on a one-point wire is a
successful mutation of the point list (the point is removed), yet the
signal trace stays empty — no point-changed notification is fired, contrary
to the claim that every successful mutation fires one. -/
theorem C3_counterexample_removal_is_silent :
    (removeFirstPoint sampleOnePoint).points = [] ∧
    sampleOnePoint.points ≠ [] ∧
    (removeFirstPoint sampleOnePoint).emitted = [] := by
  refine ⟨?_, by decide, ?_⟩ <;> decide

/-- C3 (amended): the additive mutations and the point moves —
`prependPoint`, `appendPoint`, `insertPoint` (in range), `movePointBy` (in
range), `movePointTo` (in range), and `moveLineSegmentBy` through its two
`movePointBy` calls — each append exactly the `pointMoved` event(s)
carrying the wire identity and the affected point; the removal operations
(`removeFirstPoint`, `removeLastPoint`, `removePoint`,
`removeDuplicatePoints`, `removeObsoletePoints`) and `setPointIsJunction`
fire no notification at all. -/
theorem C3_notifications_amended :
    (∀ (s : WireState) (px py : Int), (prependPoint s px py).emitted =
      s.emitted ++ [(s.wireId, mkWirePoint (px - s.gridX) (py - s.gridY))]) ∧
    (∀ (s : WireState) (px py : Int), (appendPoint s px py).emitted =
      s.emitted ++ [(s.wireId, mkWirePoint (px - s.gridX) (py - s.gridY))]) ∧
    (∀ (s : WireState) (i : Nat) (px py : Int), i < s.points.length →
      (insertPoint s (i : Int) px py).emitted =
        s.emitted ++ [(s.wireId, mkWirePoint (px - s.gridX) (py - s.gridY))]) ∧
    (∀ (s : WireState) (i : Nat) (dx dy : Int), i < s.points.length →
      (movePointBy s (i : Int) dx dy).emitted =
        s.emitted ++ [(s.wireId, mkWirePoint ((s.points.getD i default).x + dx)
          ((s.points.getD i default).y + dy))]) ∧
    (∀ (s : WireState) (i : Nat) (tx ty : Int), i < s.points.length →
      (movePointTo s (i : Int) tx ty).emitted =
        s.emitted ++ [(s.wireId, mkWirePoint (tx - s.gridX) (ty - s.gridY))]) ∧
    (∀ (s : WireState) (i : Nat) (dx dy : Int), i + 1 < s.points.length →
      (moveLineSegmentBy s (i : Int) dx dy).emitted =
        s.emitted ++ [(s.wireId, mkWirePoint ((s.points.getD i default).x + dx)
            ((s.points.getD i default).y + dy)),
          (s.wireId, mkWirePoint ((s.points.getD (i + 1) default).x + dx)
            ((s.points.getD (i + 1) default).y + dy))]) ∧
    (∀ s : WireState, (removeFirstPoint s).emitted = s.emitted) ∧
    (∀ s : WireState, (removeLastPoint s).emitted = s.emitted) ∧
    (∀ (s : WireState) (px py : Int), (removePoint s px py).emitted = s.emitted) ∧
    (∀ s : WireState, (removeDuplicatePoints s).1.emitted = s.emitted) ∧
    (∀ s : WireState, (removeObsoletePoints s).1.emitted = s.emitted) ∧
    (∀ (s : WireState) (i : Int) (b : Bool),
      (setPointIsJunction s i b).emitted = s.emitted) := by
  have hrm : ∀ (l : List WirePoint) (s : WireState),
      (l.foldl (fun st p => removePoint st p.x p.y) s).emitted = s.emitted := by
    intro l
    induction l with
    | nil => intro s; rfl
    | cons p l ih =>
        intro s
        rw [List.foldl_cons]
        rw [ih (removePoint s p.x p.y)]
        rfl
  refine ⟨fun s px py => rfl, ?_, ?_, ?_, ?_, ?_, ?_, ?_, fun s px py => rfl, ?_, ?_, ?_⟩
  · intro s px py
    dsimp only [appendPoint, update, calculateBoundingRect, emitPointMoved]
    rw [List.getLastD_concat]
  · intro s i px py hi
    have hguard : ¬ ((i : Int) < 0 ∨ (i : Int) ≥ (s.points.length : Int)) := by omega
    unfold insertPoint
    rw [if_neg hguard]
    dsimp only [update, calculateBoundingRect, emitPointMoved]
    rw [Int.toNat_natCast, getD_insertAt_self i _ s.points (le_of_lt hi)]
  · intro s i dx dy hi
    exact (movePointBy_spec s i dx dy hi).2.1
  · intro s i tx ty hi
    have hguard : ¬ ((i : Int) < 0 ∨ (i : Int) > (s.points.length : Int) - 1) := by omega
    unfold movePointTo
    rw [if_neg hguard]
    dsimp only [update, calculateBoundingRect, emitPointMoved]
    rw [Int.toNat_natCast, getD_set_self s.points i hi]
  · intro s i dx dy hi
    exact (moveLineSegmentBy_spec s i dx dy hi).2
  · intro s
    unfold removeFirstPoint
    split <;> rfl
  · intro s
    unfold removeLastPoint
    split <;> rfl
  · intro s
    unfold removeDuplicatePoints
    rfl
  · intro s
    unfold removeObsoletePoints
    split
    · rfl
    · exact hrm (collectObsoleteGo s.points) s
  · intro s i b
    unfold setPointIsJunction
    split <;> rfl

/-- C3 witness: on the one-point wire, `movePointBy(0, (2,3))` appends
exactly one `pointMoved` event carrying wire id `0` and the moved point
`(2,3)`, and `setPointIsJunction(0, true)` appends none. -/
theorem C3_witness :
    (movePointBy sampleOnePoint ((0 : Nat) : Int) 2 3).emitted =
      sampleOnePoint.emitted ++ [(sampleOnePoint.wireId,
        mkWirePoint ((sampleOnePoint.points.getD 0 default).x + 2)
          ((sampleOnePoint.points.getD 0 default).y + 3))] ∧
    (setPointIsJunction sampleOnePoint 0 true).emitted = sampleOnePoint.emitted :=
  ⟨C3_notifications_amended.2.2.2.1 sampleOnePoint 0 2 3 (by decide),
   C3_notifications_amended.2.2.2.2.2.2.2.2.2.2.2 sampleOnePoint 0 true⟩

theorem lineSegmentsGo_getD (gx gy : Int) :
    ∀ (l : List WirePoint) (i : Nat), i + 1 < l.length →
      (lineSegmentsGo gx gy l).getD i ⟨0, 0, 0, 0⟩ =
        ⟨gx + (l.getD i default).x, gy + (l.getD i default).y,
         gx + (l.getD (i + 1) default).x, gy + (l.getD (i + 1) default).y⟩
  | [], _, h => by simp at h
  | [_], _, h => by simp at h
  | _ :: _ :: _, 0, _ => rfl
  | p :: q :: rest, i + 1, h => by
      have ih := lineSegmentsGo_getD gx gy (q :: rest) i (by simpa using h)
      rw [lineSegmentsGo]
      exact ih

/-- C8: while a horizontal segment `i` is being dragged
(`_pointToMoveIndex = -1`, `_lineSegmentToMoveIndex = i`, `i` a valid
segment index, endpoints `i` and `i+1` sharing their y coordinate), a
pointer move to `(curX, curY)` translates both endpoints by exactly the
vertical pointer delta `curY - prevY` and leaves both endpoints' x
coordinates (and every other point) unchanged; in particular a purely
horizontal pointer delta (`curY = prevY`) changes no position at all. -/
theorem C8_horizontal_drag_vertical_delta (s : WireState) (i : Nat)
    (curX curY : Int) (ctrl : Bool)
    (hp : s.pointToMoveIndex = -1)
    (hseg : s.lineSegmentToMoveIndex = (i : Int))
    (hi : i + 1 < s.points.length)
    (hhor : (s.points.getD i default).y = (s.points.getD (i + 1) default).y) :
    (mouseMoveEvent s curX curY ctrl).points.length = s.points.length ∧
    posOf ((mouseMoveEvent s curX curY ctrl).points.getD i default) =
      ((s.points.getD i default).x, (s.points.getD i default).y + (curY - s.prevY)) ∧
    posOf ((mouseMoveEvent s curX curY ctrl).points.getD (i + 1) default) =
      ((s.points.getD (i + 1) default).x,
        (s.points.getD (i + 1) default).y + (curY - s.prevY)) ∧
    (∀ j : Nat, j ≠ i → j ≠ i + 1 →
      (mouseMoveEvent s curX curY ctrl).points.getD j default =
        s.points.getD j default) ∧
    (curY = s.prevY → ∀ j : Nat,
      posOf ((mouseMoveEvent s curX curY ctrl).points.getD j default) =
        posOf (s.points.getD j default)) := by
  have hdelta : mouseSegmentDelta
      ((lineSegments s).getD (i : Int).toNat ⟨0, 0, 0, 0⟩)
      curX curY s.prevX s.prevY ctrl = (0, curY - s.prevY) := by
    rw [Int.toNat_natCast]
    unfold lineSegments
    rw [if_neg (show ¬ s.points.length < 2 by omega)]
    rw [lineSegmentsGo_getD s.gridX s.gridY s.points i hi]
    unfold mouseSegmentDelta
    rw [if_pos (show Line.isHorizontal
      ⟨s.gridX + (s.points.getD i default).x, s.gridY + (s.points.getD i default).y,
       s.gridX + (s.points.getD (i + 1) default).x,
       s.gridY + (s.points.getD (i + 1) default).y⟩ = true by
        simp only [Line.isHorizontal]
        rw [hhor]
        simp)]
  have hE : (mouseMoveEvent s curX curY ctrl).points =
      (moveLineSegmentBy s (i : Int) 0 (curY - s.prevY)).points := by
    unfold mouseMoveEvent
    rw [hp, hseg]
    rw [if_neg (show ¬ ((-1 : Int) > -1) by omega)]
    rw [if_pos (show ((i : Nat) : Int) > -1 by omega)]
    rw [hdelta]
  have hmv := moveLineSegmentBy_spec s i 0 (curY - s.prevY) hi
  have hpts : (mouseMoveEvent s curX curY ctrl).points =
      (s.points.set i (mkWirePoint ((s.points.getD i default).x + 0)
        ((s.points.getD i default).y + (curY - s.prevY)))).set (i + 1)
        (mkWirePoint ((s.points.getD (i + 1) default).x + 0)
          ((s.points.getD (i + 1) default).y + (curY - s.prevY))) := by
    rw [hE, hmv.1]
  have hlen : (mouseMoveEvent s curX curY ctrl).points.length = s.points.length := by
    rw [hpts, List.length_set, List.length_set]
  have hgi : (mouseMoveEvent s curX curY ctrl).points.getD i default =
      mkWirePoint ((s.points.getD i default).x + 0)
        ((s.points.getD i default).y + (curY - s.prevY)) := by
    rw [hpts, getD_set_ne _ (i + 1) i (by omega),
      getD_set_self s.points i (by omega)]
  have hgi1 : (mouseMoveEvent s curX curY ctrl).points.getD (i + 1) default =
      mkWirePoint ((s.points.getD (i + 1) default).x + 0)
        ((s.points.getD (i + 1) default).y + (curY - s.prevY)) := by
    rw [hpts, getD_set_self _ (i + 1) (by rw [List.length_set]; omega)]
  have hother : ∀ j : Nat, j ≠ i → j ≠ i + 1 →
      (mouseMoveEvent s curX curY ctrl).points.getD j default =
        s.points.getD j default := by
    intro j hj hj1
    rw [hpts, getD_set_ne _ (i + 1) j (fun h => hj1 h.symm),
      getD_set_ne _ i j (fun h => hj h.symm)]
  refine ⟨hlen, ?_, ?_, hother, ?_⟩
  · rw [hgi]
    simp [posOf, mkWirePoint]
  · rw [hgi1]
    simp [posOf, mkWirePoint]
  · intro h0 j
    by_cases hj : j = i
    · subst hj
      rw [hgi, h0]
      simp [posOf, mkWirePoint]
    · by_cases hj1 : j = i + 1
      · subst hj1
        rw [hgi1, h0]
        simp [posOf, mkWirePoint]
      · rw [hother j hj hj1]

/-- C8 witness: a selected wire with the horizontal segment `0` of
`[(0,0), (4,0), (4,3)]` grabbed; a pointer move from `(1,0)` to `(1,2)`
(purely vertical delta `2`) moves both endpoints to y = 2 and leaves their
x coordinates unchanged. -/
theorem C8_witness :
    posOf ((mouseMoveEvent
      ⟨0, 0, 0, 1, [⟨0, 0, false⟩, ⟨4, 0, false⟩, ⟨4, 3, false⟩],
        ⟨0, 0, 4, 3⟩, [], -1, 0, 1, 0⟩ 1 2 false).points.getD 0 default) = (0, 2) ∧
    posOf ((mouseMoveEvent
      ⟨0, 0, 0, 1, [⟨0, 0, false⟩, ⟨4, 0, false⟩, ⟨4, 3, false⟩],
        ⟨0, 0, 4, 3⟩, [], -1, 0, 1, 0⟩ 1 2 false).points.getD 1 default) = (4, 2) :=
  ⟨(C8_horizontal_drag_vertical_delta
      ⟨0, 0, 0, 1, [⟨0, 0, false⟩, ⟨4, 0, false⟩, ⟨4, 3, false⟩],
        ⟨0, 0, 4, 3⟩, [], -1, 0, 1, 0⟩ 0 1 2 false rfl rfl (by decide) rfl).2.1,
   (C8_horizontal_drag_vertical_delta
      ⟨0, 0, 0, 1, [⟨0, 0, false⟩, ⟨4, 0, false⟩, ⟨4, 3, false⟩],
        ⟨0, 0, 4, 3⟩, [], -1, 0, 1, 0⟩ 0 1 2 false rfl rfl (by decide) rfl).2.2.1⟩

theorem map_posOf_set_flag :
    ∀ (l : List WirePoint) (n : Nat) (b : Bool), n < l.length →
      (l.set n ⟨(l.getD n default).x, (l.getD n default).y, b⟩).map posOf =
        l.map posOf
  | [], _, _, h => absurd h (by simp)
  | _ :: _, 0, _, _ => rfl
  | p :: l, n + 1, b, h => by
      have ih := map_posOf_set_flag l n b (by simpa using h)
      show posOf p :: (l.set n ⟨(l.getD n default).x, (l.getD n default).y, b⟩).map posOf =
        posOf p :: l.map posOf
      exact congrArg (List.cons (posOf p)) ih

/-- C10: `setPointIsJunction` at a valid index, on a state satisfying the
bounds invariant, changes only the junction flag of point `i`: the point
count, every point's position, the order (every other index's point is
untouched entirely), and the stored bounding rectangle are unchanged, and
no notification is emitted. -/
theorem C10_setJunction_frame (s : WireState) (i : Nat) (b : Bool)
    (hInv : BoundsInv s) (hi : i < s.points.length) :
    (setPointIsJunction s (i : Int) b).points.length = s.points.length ∧
    ((setPointIsJunction s (i : Int) b).points.getD i default).x =
      (s.points.getD i default).x ∧
    ((setPointIsJunction s (i : Int) b).points.getD i default).y =
      (s.points.getD i default).y ∧
    ((setPointIsJunction s (i : Int) b).points.getD i default).isJunction = b ∧
    (∀ j : Nat, j ≠ i →
      (setPointIsJunction s (i : Int) b).points.getD j default =
        s.points.getD j default) ∧
    (setPointIsJunction s (i : Int) b).rect = s.rect ∧
    (setPointIsJunction s (i : Int) b).emitted = s.emitted := by
  have hguard : ¬ ((i : Int) < 0 ∨ (i : Int) > (s.points.length : Int) - 1) := by
    omega
  have hne : s.points ≠ [] := by
    intro he
    rw [he] at hi
    simp at hi
  unfold setPointIsJunction
  rw [if_neg hguard]
  dsimp only [update, calculateBoundingRect]
  rw [Int.toNat_natCast]
  have hmap := map_posOf_set_flag s.points i b hi
  have hrect : computedRect
      (s.points.set i ⟨(s.points.getD i default).x, (s.points.getD i default).y, b⟩)
      s.gridSize = s.rect := by
    rw [computedRect_congr _ s.points s.gridSize (fun t => by rw [hmap])]
    exact (hInv hne).symm
  refine ⟨List.length_set _ _ _, ?_, ?_, ?_, ?_, hrect, rfl⟩
  · rw [getD_set_self s.points i hi]
  · rw [getD_set_self s.points i hi]
  · rw [getD_set_self s.points i hi]
  · intro j hj
    rw [getD_set_ne s.points i j (fun h => hj h.symm)]

/-- C10 witness: on the invariant-satisfying two-point wire, setting the
junction flag of point `0` keeps the rectangle and emits nothing, and the
flag is set. -/
theorem C10_witness :
    (setPointIsJunction sampleBounded ((0 : Nat) : Int) true).rect = sampleBounded.rect ∧
    (setPointIsJunction sampleBounded ((0 : Nat) : Int) true).emitted = sampleBounded.emitted ∧
    ((setPointIsJunction sampleBounded ((0 : Nat) : Int) true).points.getD 0 default).isJunction = true :=
  ⟨(C10_setJunction_frame sampleBounded 0 true (by unfold BoundsInv; decide)
      (by decide)).2.2.2.2.2.1,
   (C10_setJunction_frame sampleBounded 0 true (by unfold BoundsInv; decide)
      (by decide)).2.2.2.2.2.2,
   (C10_setJunction_frame sampleBounded 0 true (by unfold BoundsInv; decide)
      (by decide)).2.2.2.1⟩

theorem le_of_mul_self_le_mul_self {a b : ℝ} (_ha : 0 ≤ a) (hb : 0 ≤ b)
    (h : a * a ≤ b * b) : a ≤ b := by
  by_contra hc
  push_neg at hc
  have h1 : b * b ≤ a * b := mul_le_mul_of_nonneg_right hc.le hb
  have h2 : a * b < a * a := mul_lt_mul_of_pos_left hc (lt_of_le_of_lt hb hc)
  linarith

theorem fuzzy_core_iff_real (d n : ℤ) (hn : 0 ≤ n) :
    (if d < 0 then false
     else if d * d ≤ n then decide (100000 ^ 2 * n ≤ 100001 ^ 2 * (d * d))
     else decide (100000 ^ 2 * (d * d) ≤ 100001 ^ 2 * n)) = true ↔
      |(d : ℝ) - Real.sqrt (n : ℝ)| * 100000 ≤
        min |(d : ℝ)| (Real.sqrt (n : ℝ)) := by
  have hn0R : (0 : ℝ) ≤ (n : ℝ) := by exact_mod_cast hn
  have hr0 : 0 ≤ Real.sqrt (n : ℝ) := Real.sqrt_nonneg _
  have hr2 : Real.sqrt (n : ℝ) * Real.sqrt (n : ℝ) = (n : ℝ) :=
    Real.mul_self_sqrt hn0R
  by_cases h1 : d < 0
  · rw [if_pos h1]
    simp only [Bool.false_eq_true, false_iff, not_le]
    have hd1 : (d : ℝ) ≤ -1 := by
      have hz : d ≤ -1 := by omega
      exact_mod_cast hz
    have habs : |(d : ℝ)| = -(d : ℝ) := abs_of_neg (by linarith)
    have habs2 : |(d : ℝ) - Real.sqrt (n : ℝ)| = Real.sqrt (n : ℝ) - (d : ℝ) := by
      rw [abs_of_nonpos (by linarith)]
      ring
    rw [habs2]
    have hmin : min |(d : ℝ)| (Real.sqrt (n : ℝ)) ≤ -(d : ℝ) := by
      rw [← habs]
      exact min_le_left _ _
    nlinarith
  · rw [if_neg h1]
    have hd0 : (0 : ℝ) ≤ (d : ℝ) := by exact_mod_cast not_lt.mp h1
    have habs : |(d : ℝ)| = (d : ℝ) := abs_of_nonneg hd0
    by_cases h2 : d * d ≤ n
    · rw [if_pos h2, decide_eq_true_eq]
      have h2R : (d : ℝ) * (d : ℝ) ≤ (n : ℝ) := by exact_mod_cast h2
      have hdr : (d : ℝ) ≤ Real.sqrt (n : ℝ) :=
        le_of_mul_self_le_mul_self hd0 hr0 (by rw [hr2]; exact h2R)
      have hmin : min |(d : ℝ)| (Real.sqrt (n : ℝ)) = (d : ℝ) := by
        rw [habs]
        exact min_eq_left hdr
      have habs2 : |(d : ℝ) - Real.sqrt (n : ℝ)| = Real.sqrt (n : ℝ) - (d : ℝ) := by
        rw [abs_of_nonpos (by linarith)]
        ring
      rw [hmin, habs2]
      constructor
      · intro h
        have hR : (100000 : ℝ) ^ 2 * (n : ℝ) ≤ 100001 ^ 2 * ((d : ℝ) * (d : ℝ)) := by
          exact_mod_cast h
        have h5 : (100000 : ℝ) * Real.sqrt (n : ℝ) ≤ 100001 * (d : ℝ) := by
          refine le_of_mul_self_le_mul_self
            (by positivity) (by positivity) ?_
          nlinarith [hr2]
        linarith
      · intro h
        have h5 : (100000 : ℝ) * Real.sqrt (n : ℝ) ≤ 100001 * (d : ℝ) := by
          linarith
        have hsq : (100000 : ℝ) ^ 2 * (n : ℝ) ≤ 100001 ^ 2 * ((d : ℝ) * (d : ℝ)) := by
          nlinarith [mul_self_le_mul_self (by positivity :
            (0 : ℝ) ≤ 100000 * Real.sqrt (n : ℝ)) h5, hr2]
        exact_mod_cast hsq
    · rw [if_neg h2, decide_eq_true_eq]
      have h2R : (n : ℝ) < (d : ℝ) * (d : ℝ) := by exact_mod_cast not_le.mp h2
      have hrd : Real.sqrt (n : ℝ) ≤ (d : ℝ) :=
        le_of_mul_self_le_mul_self hr0 hd0 (by rw [hr2]; exact le_of_lt h2R)
      have hmin : min |(d : ℝ)| (Real.sqrt (n : ℝ)) = Real.sqrt (n : ℝ) := by
        rw [habs]
        exact min_eq_right hrd
      have habs2 : |(d : ℝ) - Real.sqrt (n : ℝ)| = (d : ℝ) - Real.sqrt (n : ℝ) :=
        abs_of_nonneg (by linarith)
      rw [hmin, habs2]
      constructor
      · intro h
        have hR : (100000 : ℝ) ^ 2 * ((d : ℝ) * (d : ℝ)) ≤ 100001 ^ 2 * (n : ℝ) := by
          exact_mod_cast h
        have h5 : (100000 : ℝ) * (d : ℝ) ≤ 100001 * Real.sqrt (n : ℝ) := by
          refine le_of_mul_self_le_mul_self
            (by positivity) (by positivity) ?_
          nlinarith [hr2]
        linarith
      · intro h
        have h5 : (100000 : ℝ) * (d : ℝ) ≤ 100001 * Real.sqrt (n : ℝ) := by
          linarith
        have hsq : (100000 : ℝ) ^ 2 * ((d : ℝ) * (d : ℝ)) ≤ 100001 ^ 2 * (n : ℝ) := by
          nlinarith [mul_self_le_mul_self (by positivity :
            (0 : ℝ) ≤ 100000 * (d : ℝ)) h5, hr2]
        exact_mod_cast hsq

/-- Faithfulness of the integer embedding of the obsolete-point test: for
every pair of integral direction vectors, `fuzzySameDir v1 v2` holds exactly
when Qt's `qFuzzyCompare(p1, p2)` — `|p1 - p2| * 100000 ≤ min |p1| |p2|` —
holds over the reals for `p1 = dot v1 v2` and
`p2 = |v1| · |v2| = √(normSq v1 · normSq v2)`.  (The only idealization left
is `float` rounding of the intermediate products and square roots.) -/
theorem fuzzySameDir_iff_qFuzzyCompare (v1 v2 : Int × Int) :
    fuzzySameDir v1 v2 = true ↔
      |((dotI v1 v2 : ℤ) : ℝ) - Real.sqrt ((normSq v1 * normSq v2 : ℤ) : ℝ)| * 100000 ≤
        min |((dotI v1 v2 : ℤ) : ℝ)| (Real.sqrt ((normSq v1 * normSq v2 : ℤ) : ℝ)) :=
  fuzzy_core_iff_real (dotI v1 v2) (normSq v1 * normSq v2)
    (mul_nonneg (normSq_nonneg v1) (normSq_nonneg v2))

end QSchematicWire
